import Mathlib

/- Verification of the webserver repository's HTTP parsing, request framing,
   connection driving and thread-pool components, shallowly embedded over
   `List Char` buffers and an interleaving transition system for the pool. -/

set_option maxHeartbeats 1000000

namespace WebServer

/-- Raw byte buffers are modelled as lists of characters. -/
abbrev Str := List Char

/-- Shorthand turning a Lean string literal into a buffer. -/
def S (s : String) : Str := s.data

/-- The C locale `isspace` set used by `operator>>` and `std::stoi`. -/
def isWsChar (c : Char) : Bool :=
  c = ' ' || c = '\t' || c = '\n' || c = '\x0b' || c = '\x0c' || c = '\r'

/-- The `" \t"` set used by the header key/value trimming in `HttpRequest::parse`. -/
def isHWsChar (c : Char) : Bool :=
  c = ' ' || c = '\t'

/-- `::tolower` in the C locale: only maps A-Z to a-z. -/
def lowerChar (c : Char) : Char :=
  if 'A' ≤ c && c ≤ 'Z' then Char.ofNat (c.toNat + 32) else c

/-- `std::transform(key.begin(), key.end(), key.begin(), ::tolower)`. -/
def lowerStr (s : Str) : Str := s.map lowerChar

/-- The two `erase`/`find_first_not_of`/`find_last_not_of` calls trimming
    leading and trailing spaces and tabs. -/
def trimWs (s : Str) : Str :=
  ((s.dropWhile isHWsChar).reverse.dropWhile isHWsChar).reverse

/-- `if (line.back() == '\r') line.pop_back();` guarded against emptiness. -/
def stripCr (l : Str) : Str :=
  if l.getLast? = some '\r' then l.dropLast else l

/-- `std::getline(ss, line)`: the portion of the stream before the first LF. -/
def lineOf (s : Str) : Str := s.takeWhile (fun c => c != '\n')

/-- The stream contents remaining after `std::getline` consumed one line. -/
def restAfterLine (s : Str) : Str := (s.dropWhile (fun c => c != '\n')).drop 1

/-- One `line_ss >> tok` extraction: skip `isspace` characters, then take the
    maximal run of non-space characters; also returns the unread remainder. -/
def nextTok (s : Str) : Str × Str :=
  let s' := s.dropWhile isWsChar
  (s'.takeWhile (fun c => !(isWsChar c)), s'.dropWhile (fun c => !(isWsChar c)))

/-- Dropping a prefix never lengthens a list. -/
theorem lengthDropWhileLe (p : Char → Bool) (l : Str) :
    (l.dropWhile p).length ≤ l.length := by
  induction l with
  | nil => simp [List.dropWhile]
  | cons a t ih =>
    by_cases h : p a <;> simp [List.dropWhile, h] <;> omega

/-- `takeWhile` and `dropWhile` split the length of a list. -/
theorem lengthTakeDropWhile (p : Char → Bool) (l : Str) :
    (l.takeWhile p).length + (l.dropWhile p).length = l.length := by
  conv_rhs => rw [← List.takeWhile_append_dropWhile p l]
  rw [List.length_append]

/-- A successful `>>` extraction consumes at least one character. -/
theorem nextTokRest_lt (l : Str) (h : (nextTok l).1 ≠ []) :
    (nextTok l).2.length < l.length := by
  have h1 : (l.dropWhile isWsChar).length ≤ l.length := lengthDropWhileLe isWsChar l
  have h3 := lengthTakeDropWhile (fun c => !(isWsChar c)) (l.dropWhile isWsChar)
  have h4 : 0 < ((l.dropWhile isWsChar).takeWhile (fun c => !(isWsChar c))).length :=
    List.length_pos.mpr h
  simp only [nextTok]
  omega

/-- Fuel-indexed token extraction loop (the fuel only serves structural
    recursion; `wsTokens` supplies enough for the loop to run to completion). -/
def wsTokensF : Nat → Str → List Str
  | 0, _ => []
  | fuel + 1, l =>
    if (nextTok l).1 = [] then []
    else (nextTok l).1 :: wsTokensF fuel (nextTok l).2

/-- The list of whitespace-separated tokens of a line, as successive
    `>>` extractions would produce them. -/
def wsTokens (l : Str) : List Str := wsTokensF (l.length + 1) l

theorem wsTokensF_congr (fuel : Nat) : ∀ (fuel' : Nat) (l : Str),
    l.length < fuel → l.length < fuel' → wsTokensF fuel l = wsTokensF fuel' l := by
  induction fuel with
  | zero => intro fuel' l h _; omega
  | succ f ih =>
    intro fuel' l h h'
    cases fuel' with
    | zero => omega
    | succ f' =>
      simp only [wsTokensF]
      by_cases ht : (nextTok l).1 = []
      · rw [if_pos ht, if_pos ht]
      · rw [if_neg ht, if_neg ht]
        have hlt := nextTokRest_lt l ht
        rw [ih f' (nextTok l).2 (by omega) (by omega)]

/-- The header mapping of a request (`std::map<std::string, std::string>`),
    modelled up to ordering as an association list. -/
abbrev Headers := List (Str × Str)

/-- `headers[key] = value`: overwrite the existing binding or append a new one. -/
def hset (m : Headers) (k v : Str) : Headers :=
  match m with
  | [] => [(k, v)]
  | (k', v') :: rest => if k' = k then (k, v) :: rest else (k', v') :: hset rest k v

/-- `headers.find(key)` as an optional lookup. -/
def hget (m : Headers) (k : Str) : Option Str :=
  match m with
  | [] => none
  | (k', v') :: rest => if k' = k then some v' else hget rest k

/-- `line.find(':')` followed by the two `substr` calls: the part before the
    first colon and the part after it, or `none` when no colon occurs. -/
def splitAtColon (l : Str) : Option (Str × Str) :=
  if l.contains ':' then
    some (l.takeWhile (fun c => c != ':'), (l.dropWhile (fun c => c != ':')).drop 1)
  else none

/-- Processing of one (CR-stripped) header line inside the parse loop:
    lines without a colon are skipped, otherwise the trimmed lowercased key
    is bound to the trimmed value. -/
def headerStep (m : Headers) (line : Str) : Headers :=
  match splitAtColon line with
  | none => m
  | some (k, v) => hset m (lowerStr (trimWs k)) (trimWs v)

/-- Consuming one line always shortens a non-empty stream. -/
theorem restAfterLine_lt (s : Str) (h : s ≠ []) :
    (restAfterLine s).length < s.length := by
  have h1 : (s.dropWhile (fun c => c != '\n')).length ≤ s.length :=
    lengthDropWhileLe _ s
  have h2 : 0 < s.length := List.length_pos.mpr h
  simp only [restAfterLine, List.length_drop]
  omega

/-- Fuel-indexed version of the header loop (structural recursion only;
    `headerLoop` supplies enough fuel for the loop to run to completion). -/
def headerLoopF : Nat → Headers → Str → Headers × Str
  | 0, m, _ => (m, [])
  | fuel + 1, m, s =>
    if s = [] then (m, [])
    else if lineOf s = S "\r" ∨ lineOf s = [] then (m, restAfterLine s)
    else headerLoopF fuel (headerStep m (stripCr (lineOf s))) (restAfterLine s)

/-- The header loop `while (std::getline(ss, line) && line != "\r" && !line.empty())`
    of `HttpRequest::parse`; returns the map and the stream contents left after
    the loop (what `ss.read` would subsequently consume as the body). -/
def headerLoop (m : Headers) (s : Str) : Headers × Str :=
  headerLoopF (s.length + 1) m s

theorem headerLoopF_congr (fuel : Nat) : ∀ (fuel' : Nat) (m : Headers) (s : Str),
    s.length < fuel → s.length < fuel' →
    headerLoopF fuel m s = headerLoopF fuel' m s := by
  induction fuel with
  | zero => intro fuel' m s h _; omega
  | succ f ih =>
    intro fuel' m s h h'
    cases fuel' with
    | zero => omega
    | succ f' =>
      simp only [headerLoopF]
      by_cases hs : s = []
      · rw [if_pos hs, if_pos hs]
      · rw [if_neg hs, if_neg hs]
        by_cases hterm : lineOf s = S "\r" ∨ lineOf s = []
        · rw [if_pos hterm, if_pos hterm]
        · rw [if_neg hterm, if_neg hterm]
          have hlt := restAfterLine_lt s hs
          rw [ih f' (headerStep m (stripCr (lineOf s))) (restAfterLine s)
            (by omega) (by omega)]

/-- The header loop satisfies its natural one-step unfolding. -/
theorem headerLoop_eq (m : Headers) (s : Str) :
    headerLoop m s =
      if s = [] then (m, [])
      else if lineOf s = S "\r" ∨ lineOf s = [] then (m, restAfterLine s)
      else headerLoop (headerStep m (stripCr (lineOf s))) (restAfterLine s) := by
  rw [headerLoop, headerLoop]
  conv_lhs => rw [headerLoopF]
  by_cases hs : s = []
  · rw [if_pos hs, if_pos hs]
  · rw [if_neg hs, if_neg hs]
    by_cases hterm : lineOf s = S "\r" ∨ lineOf s = []
    · rw [if_pos hterm, if_pos hterm]
    · rw [if_neg hterm, if_neg hterm]
      have hlt := restAfterLine_lt s hs
      exact headerLoopF_congr _ _ _ _ (by omega) (by omega)

/-- Numeric value of a digit string. -/
def digitsVal (ds : Str) : Nat := ds.foldl (fun a c => a * 10 + (c.toNat - 48)) 0

/-- `std::stoi`: skip `isspace`, optional sign, at least one digit (else
    `invalid_argument`), stop at the first non-digit, `out_of_range` outside
    the `int` range.  Failure (either exception) is `none`. -/
def stoi (s : Str) : Option Int :=
  let s1 := s.dropWhile isWsChar
  let sr : Int × Str :=
    match s1 with
    | '-' :: r => (-1, r)
    | '+' :: r => (1, r)
    | _ => (1, s1)
  let ds := sr.2.takeWhile (fun c => c.isDigit)
  if ds = [] then none
  else
    let v : Int := sr.1 * (digitsVal ds : Int)
    if v < -2147483648 ∨ 2147483647 < v then none else some v

/-- The parse result record of `HttpRequestParser.hpp`. -/
structure HttpRequest where
  method : Str := []
  path : Str := []
  version : Str := []
  headers : Headers := []
  body : Str := []
deriving DecidableEq

/-- The lowercase key `HttpRequest::parse` and `handle_request` look up. -/
def contentLengthKey : Str := S "content-length"

/-- The body section of `HttpRequest::parse`: only for POST/PUT with a
    `content-length` header; `stoi` failure is caught leaving the body empty;
    the mixed signed/unsigned comparison `remaining.length() >= content_length`
    is false for negative declared lengths, keeping all remaining bytes. -/
def bodyOf (method : Str) (hs : Headers) (rest : Str) : Str :=
  if method = S "POST" ∨ method = S "PUT" then
    match hget hs contentLengthKey with
    | some v =>
      match stoi v with
      | some n => if 0 ≤ n ∧ n.toNat ≤ rest.length then rest.take n.toNat else rest
      | none => []
    | none => []
  else []

/-- First `>>` extraction of the request line (`method`). -/
def reqTok1 (line : Str) : Str := (nextTok line).1

/-- Second `>>` extraction of the request line (`path`). -/
def reqTok2 (line : Str) : Str := (nextTok (nextTok line).2).1

/-- Third `>>` extraction of the request line (`version`, before the
    trailing-CR strip). -/
def reqTok3 (line : Str) : Str := (nextTok (nextTok (nextTok line).2).2).1

/-- `HttpRequest::parse` with the in-place mutation made explicit: returns the
    field state the C++ object holds after the call together with the returned
    flag.  On a request-line failure the partially extracted tokens remain. -/
def parseFull (raw : Str) : HttpRequest × Bool :=
  if raw = [] then ({}, false)
  else if lineOf raw = [] then ({}, false)
  else if reqTok1 (lineOf raw) = [] ∨ reqTok2 (lineOf raw) = [] ∨
      stripCr (reqTok3 (lineOf raw)) = [] then
    ({ method := reqTok1 (lineOf raw), path := reqTok2 (lineOf raw),
       version := stripCr (reqTok3 (lineOf raw)) }, false)
  else
    ({ method := reqTok1 (lineOf raw), path := reqTok2 (lineOf raw),
       version := stripCr (reqTok3 (lineOf raw)),
       headers := (headerLoop [] (restAfterLine raw)).1,
       body := bodyOf (reqTok1 (lineOf raw)) (headerLoop [] (restAfterLine raw)).1
         (headerLoop [] (restAfterLine raw)).2 }, true)

/-- The boolean-returning `HttpRequest::parse` as an optional result: `none` is
    a definite failure, `some` a fully parsed request. -/
def parse (raw : Str) : Option HttpRequest :=
  if (parseFull raw).2 then some (parseFull raw).1 else none

/-- Result of the lightweight content-length peek in webserver3's read loop:
    either a value for `content_length`, or `bad` for the caught `stoi`
    exception that breaks out of the loop. -/
inductive ClenResult
  | ok (n : Int)
  | bad
deriving DecidableEq

/-- The peek performed right after the header terminator is first seen:
    parse the accumulated buffer, and for POST/PUT take `stoi` of the
    `content-length` header; absent header (or non-POST/PUT method) leaves
    the initial value 0. -/
def declaredLen (method : Str) (hs : Headers) : ClenResult :=
  if method = S "POST" ∨ method = S "PUT" then
    match hget hs contentLengthKey with
    | some v =>
      match stoi v with
      | some n => .ok n
      | none => .bad
    | none => .ok 0
  else .ok 0

/-- Does the buffer start with the header terminator `\r\n\r\n`? -/
def startsWithTerm : Str → Bool
  | a :: b :: c :: d :: _ => a = '\r' && b = '\n' && c = '\r' && d = '\n'
  | _ => false

/-- Does the buffer start with `\r\n`? -/
def startsWithCrlf : Str → Bool
  | a :: b :: _ => a = '\r' && b = '\n'
  | _ => false

/-- `request_data.find("\r\n\r\n")`: index of the first header terminator. -/
def findSeq4 : Str → Option Nat
  | [] => none
  | c :: rest =>
    if startsWithTerm (c :: rest) then some 0
    else (findSeq4 rest).map (· + 1)

/-- One header-discovery evaluation of webserver3's read loop: given the
    current flag/length state and the grown buffer, the updated flag, updated
    `content_length`, and whether the `stoi` catch broke the loop. -/
def frameDiscover (hdrRecv : Bool) (clen : Int) (buf : Str) : Bool × Int × Bool :=
  if hdrRecv then (true, clen, false)
  else
    match findSeq4 buf with
    | none => (false, clen, false)
    | some _ =>
      match declaredLen (parseFull buf).1.method (parseFull buf).1.headers with
      | .ok n => (true, n, false)
      | .bad => (true, clen, true)

/-- The read loop of webserver3's `handle_request`, consuming successive
    `NetRecv` chunks.  An empty chunk list means the next `recv` returns 0
    (peer closed), giving back the buffer with `valread <= 0`.  Returns the
    accumulated buffer and whether the final `valread` was positive. -/
def frameLoop (buf : Str) (hdrRecv : Bool) (clen : Int) : List Str → Str × Bool
  | [] => (buf, false)
  | c :: rest =>
    let buf' := buf ++ c
    let d := frameDiscover hdrRecv clen buf'
    if d.2.2 then (buf', true)
    else if d.1 then
      match findSeq4 buf' with
      | some p =>
        if (0 ≤ d.2.1 ∧ p + 4 + d.2.1.toNat ≤ buf'.length) ∨ d.2.1 = 0 then (buf', true)
        else frameLoop buf' d.1 d.2.1 rest
      | none => frameLoop buf' d.1 d.2.1 rest
    else frameLoop buf' d.1 d.2.1 rest

/-- The CRLF line terminator of the wire format. -/
def crlf : Str := ['\r', '\n']

/-- Wire encoding of a list of header lines, each CRLF-terminated. -/
def headerBytes (hls : List Str) : Str := (hls.map (fun h => h ++ crlf)).join

/-- A well-formed wire request: request line, CRLF, CRLF-terminated header
    lines, the blank line, then the body. -/
def mkRequest (rl : Str) (hls : List Str) (body : Str) : Str :=
  rl ++ crlf ++ headerBytes hls ++ crlf ++ body

/-- Offset at which `\r\n\r\n` first occurs in such a request. -/
def termPos (rl : Str) (hls : List Str) : Nat :=
  rl.length + (headerBytes hls).length

/-- The header map obtained by running the parse loop over given lines. -/
def foldHeaders (m : Headers) (hls : List Str) : Headers :=
  hls.foldl headerStep m

/-- What a connection driver did: the response bytes it sent (if any) and
    whether it closed the client socket. -/
structure DriverResult where
  response : Option Str
  closed : Bool
deriving DecidableEq

/-- Decimal rendering used for the `Content-Length` values in responses. -/
def natToStr (n : Nat) : Str := (Nat.repr n).data

/-- The literal 404 response of webserver3's GET branch. -/
def respNotFound : Str :=
  S "HTTP/1.1 404 Not Found\r\nContent-Type: text/plain\r\nContent-Length: 9\r\n\r\nNot Found"

/-- The 200 response of webserver3's GET branch. -/
def resp200Html (content : Str) : Str :=
  S "HTTP/1.1 200 OK\r\nContent-Type: text/html\r\nContent-Length: " ++
    natToStr content.length ++ S "\r\n\r\n" ++ content

/-- The 200 echo response of webserver3's POST branch. -/
def resp200Plain (body : Str) : Str :=
  S "HTTP/1.1 200 OK\r\nContent-Type: text/plain\r\nContent-Length: " ++
    natToStr body.length ++ S "\r\n\r\n" ++ body

/-- The response phase of webserver3's `handle_request` (run when
    `valread > 0`): parse the buffer, serve GET from the file collaborator
    `fs` (empty content means 404), echo POST bodies, and send nothing for
    any other method. -/
def handleAfterFrame (fs : Str → Str) (buf : Str) : Option Str :=
  if (parseFull buf).1.method = S "GET" then
    let content :=
      fs (if (parseFull buf).1.path = S "/" then S "html/index.html"
          else S "html" ++ (parseFull buf).1.path)
    if content = [] then some respNotFound else some (resp200Html content)
  else if (parseFull buf).1.method = S "POST" then
    some (resp200Plain (parseFull buf).1.body)
  else none

/-- webserver3's `handle_request` for one connection: frame, then respond if
    the last read was positive.  The source contains no `CLOSE_SOCKET` call on
    any path of this function, so the socket is never closed. -/
def ws3_handle_request (fs : Str → Str) (chunks : List Str) : DriverResult :=
  { response :=
      if (frameLoop [] false 0 chunks).2 then
        handleAfterFrame fs (frameLoop [] false 0 chunks).1
      else none,
    closed := false }

/-- webserver2's `send_response`: status line, `Content-Type`,
    `Content-Length`, `Connection: close`, blank line, body. -/
def mkResp2 (status ctype body : Str) : Str :=
  S "HTTP/1.1 " ++ status ++ S "\r\n" ++ S "Content-Type: " ++ ctype ++ S "\r\n" ++
    S "Content-Length: " ++ natToStr body.length ++ S "\r\n" ++
    S "Connection: close\r\n" ++ S "\r\n" ++ body

/-- The routing of webserver2's `handle_request` on the received bytes:
    tokenize the request line with `>>`, serve `GET /` and `GET /time`
    (the latter using the time collaborator `now`), 404 other GET paths, and
    answer 501 Not Implemented to every non-GET method. -/
def ws2_route (now : Str) (data : Str) : Str :=
  if (nextTok data).1 = S "GET" then
    if (nextTok (nextTok data).2).1 = S "/" then
      mkResp2 (S "200 OK") (S "text/html")
        (S "<h1>Welcome to Simple Server!</h1><p>Try visiting /time for the current time.</p>")
    else if (nextTok (nextTok data).2).1 = S "/time" then
      mkResp2 (S "200 OK") (S "text/html")
        (S "<h2>Current Time</h2><p>" ++ now ++ S "</p>")
    else
      mkResp2 (S "404 Not Found") (S "text/html")
        (S "<h1>404 Not Found</h1><p>The requested resource " ++
          (nextTok (nextTok data).2).1 ++ S " was not found.</p>")
  else
    mkResp2 (S "501 Not Implemented") (S "text/html")
      (S "<h1>501 Not Implemented</h1><p>Only GET method is supported.</p>")

/-- webserver2's `handle_request`: one `recv` (`none` models `valread <= 0`),
    route and respond on data, and close the socket unconditionally at the
    end of the function. -/
def ws2_handle_request (now : Str) (chunk : Option Str) : DriverResult :=
  match chunk with
  | some d => { response := some (ws2_route now d), closed := true }
  | none => { response := none, closed := true }

/-- Status of one worker thread of the pool: blocked or between tasks
    (`idle`), executing a dequeued task, or returned from its loop. -/
inductive WStatus
  | idle
  | running (t : Nat)
  | exited
deriving DecidableEq

/-- The mutex-protected shared state of `ThreadPool` (tasks identified by
    numbers), extended with bookkeeping of accepted submissions, executed
    tasks, and whether the destructor has returned. -/
structure PoolState where
  stopFlag : Bool
  tasks : List Nat
  workers : List WStatus
  executed : List Nat
  submittedOk : List Nat
  returned : Bool
deriving DecidableEq

/-- `ThreadPool::ThreadPool(n)`: `stop_flag(false)`, empty queue, `n` workers
    started in their wait loops. -/
def initPool (n : Nat) : PoolState :=
  { stopFlag := false, tasks := [], workers := List.replicate n .idle,
    executed := [], submittedOk := [], returned := false }

/-- `ThreadPool::enqueue` under the queue mutex: throw
    `runtime_error("enqueue on stopped ThreadPool")` when `stop_flag` is set,
    otherwise `tasks.emplace(...)` at the back of the queue. -/
def enqueue (st : PoolState) (t : Nat) : Except String PoolState :=
  if st.stopFlag then .error "enqueue on stopped ThreadPool"
  else .ok { st with tasks := st.tasks ++ [t], submittedOk := st.submittedOk ++ [t] }

/-- The tasks currently being executed by some worker. -/
def runningOf (ws : List WStatus) : List Nat :=
  ws.filterMap (fun w => match w with | .running t => some t | _ => none)

/-- Interleaving semantics of the pool: every constructor is one critical
    section (or lock-free action) of `thread_pool.cpp`.  `submit`/`submitFail`
    are `enqueue`; `take` is a worker popping the queue head under the lock;
    `finish` is `task()` returning (exceptions are caught in the worker);
    `wexit` is the `stop_flag && tasks.empty()` return; `shutdown` is the
    destructor setting `stop_flag`; `joinDone` is the destructor's `join`
    loop completing, which needs every worker to have exited. -/
inductive PoolStep : PoolState → PoolState → Prop
  | submit (st : PoolState) (t : Nat) (st' : PoolState) :
      enqueue st t = .ok st' → PoolStep st st'
  | submitFail (st : PoolState) (t : Nat) (e : String) :
      enqueue st t = .error e → PoolStep st st
  | take (st : PoolState) (i : Nat) (t : Nat) (rest : List Nat) :
      st.workers[i]? = some .idle → st.tasks = t :: rest →
      PoolStep st { st with workers := st.workers.set i (.running t), tasks := rest }
  | finish (st : PoolState) (i : Nat) (t : Nat) :
      st.workers[i]? = some (.running t) →
      PoolStep st { st with workers := st.workers.set i .idle,
                            executed := st.executed ++ [t] }
  | wexit (st : PoolState) (i : Nat) :
      st.workers[i]? = some .idle → st.stopFlag = true → st.tasks = [] →
      PoolStep st { st with workers := st.workers.set i .exited }
  | shutdown (st : PoolState) :
      PoolStep st { st with stopFlag := true }
  | joinDone (st : PoolState) :
      st.stopFlag = true → (∀ w ∈ st.workers, w = .exited) →
      PoolStep st { st with returned := true }

/-- States reachable from a freshly constructed pool of `n` workers. -/
inductive PoolReach (n : Nat) : PoolState → Prop
  | init : PoolReach n (initPool n)
  | step {s s' : PoolState} : PoolReach n s → PoolStep s s' → PoolReach n s'

/-- The inductive invariant of the pool: fixed worker count; accepted
    submissions are exactly the executed, queued, and in-flight tasks
    (up to permutation); only a stopped pool has exited workers; a stopped
    pool whose workers have all exited has drained its queue; and a returned
    destructor implies stop and full worker exit. -/
def PoolInv (n : Nat) (s : PoolState) : Prop :=
  s.workers.length = n ∧
  List.Perm s.submittedOk (s.executed ++ s.tasks ++ runningOf s.workers) ∧
  (s.stopFlag = false → ∀ w ∈ s.workers, w ≠ .exited) ∧
  (s.stopFlag = true → (∀ w ∈ s.workers, w = .exited) → s.workers ≠ [] → s.tasks = []) ∧
  (s.returned = true → s.stopFlag = true ∧ ∀ w ∈ s.workers, w = .exited)

theorem runningOf_cons_idle (tl : List WStatus) :
    runningOf (.idle :: tl) = runningOf tl := rfl

theorem runningOf_cons_exited (tl : List WStatus) :
    runningOf (.exited :: tl) = runningOf tl := rfl

theorem runningOf_cons_running (t : Nat) (tl : List WStatus) :
    runningOf (.running t :: tl) = t :: runningOf tl := rfl

theorem runningOf_set_running (ws : List WStatus) (i t : Nat)
    (h : ws[i]? = some .idle) :
    List.Perm (runningOf (ws.set i (.running t))) (t :: runningOf ws) := by
  induction ws generalizing i with
  | nil => simp at h
  | cons w tl ih =>
    cases i with
    | zero =>
      simp only [List.getElem?_cons_zero, Option.some.injEq] at h
      subst h
      simp only [List.set_cons_zero, runningOf_cons_running, runningOf_cons_idle]
      exact List.Perm.refl _
    | succ j =>
      simp only [List.getElem?_cons_succ] at h
      have hp := ih j h
      cases w with
      | idle =>
        simpa [List.set_cons_succ, runningOf_cons_idle] using hp
      | exited =>
        simpa [List.set_cons_succ, runningOf_cons_exited] using hp
      | running u =>
        simp only [List.set_cons_succ, runningOf_cons_running]
        exact (hp.cons u).trans (List.Perm.swap t u (runningOf tl))

theorem runningOf_set_idle (ws : List WStatus) (i t : Nat)
    (h : ws[i]? = some (.running t)) :
    List.Perm (runningOf ws) (t :: runningOf (ws.set i .idle)) := by
  induction ws generalizing i with
  | nil => simp at h
  | cons w tl ih =>
    cases i with
    | zero =>
      simp only [List.getElem?_cons_zero, Option.some.injEq] at h
      subst h
      simp only [List.set_cons_zero, runningOf_cons_running, runningOf_cons_idle]
      exact List.Perm.refl _
    | succ j =>
      simp only [List.getElem?_cons_succ] at h
      have hp := ih j h
      cases w with
      | idle =>
        simpa [List.set_cons_succ, runningOf_cons_idle] using hp
      | exited =>
        simpa [List.set_cons_succ, runningOf_cons_exited] using hp
      | running u =>
        simp only [List.set_cons_succ, runningOf_cons_running]
        exact (hp.cons u).trans (List.Perm.swap t u _)

theorem runningOf_set_exited (ws : List WStatus) (i : Nat)
    (h : ws[i]? = some .idle) :
    runningOf (ws.set i .exited) = runningOf ws := by
  induction ws generalizing i with
  | nil => simp at h
  | cons w tl ih =>
    cases i with
    | zero =>
      simp only [List.getElem?_cons_zero, Option.some.injEq] at h
      subst h
      simp [List.set_cons_zero, runningOf_cons_exited, runningOf_cons_idle]
    | succ j =>
      simp only [List.getElem?_cons_succ] at h
      cases w <;> simp [List.set_cons_succ, runningOf_cons_idle,
        runningOf_cons_exited, runningOf_cons_running, ih j h]

theorem poolInv_init (n : Nat) : PoolInv n (initPool n) := by
  refine ⟨by simp [initPool], ?_, ?_, ?_, ?_⟩
  · simp only [initPool]
    have : runningOf (List.replicate n .idle) = [] := by
      induction n with
      | zero => rfl
      | succ m ih => simpa [List.replicate, runningOf_cons_idle] using ih
    simp [this]
  · intro _ w hw
    have := List.eq_of_mem_replicate hw
    simp [this]
  · intro h
    simp [initPool] at h
  · intro h
    simp [initPool] at h

theorem poolInv_step {n : Nat} {s s' : PoolState}
    (hinv : PoolInv n s) (hstep : PoolStep s s') : PoolInv n s' := by
  obtain ⟨hlen, hperm, hexit, hdrain, hret⟩ := hinv
  cases hstep with
  | submit t st2 henq =>
    have hsf : s.stopFlag = false := by
      by_cases hstop : s.stopFlag
      · rw [enqueue, if_pos hstop] at henq
        cases henq
      · simpa using hstop
    rw [enqueue, if_neg (by simp [hsf])] at henq
    have hst : s' = { s with tasks := s.tasks ++ [t], submittedOk := s.submittedOk ++ [t] } := by
      cases henq
      rfl
    subst hst
    refine ⟨hlen, ?_, ?_, ?_, ?_⟩
    · rw [List.perm_iff_count]
      intro a
      have hc := hperm.count_eq a
      simp only [List.count_append] at hc ⊢
      omega
    · intro h1
      dsimp only at h1
      exact hexit h1
    · intro h1
      dsimp only at h1
      rw [hsf] at h1
      cases h1
    · intro h1
      dsimp only at h1
      exact hret h1
  | submitFail t e _ =>
    exact ⟨hlen, hperm, hexit, hdrain, hret⟩
  | take i t rest hidle htasks =>
    refine ⟨by simpa using hlen, ?_, ?_, ?_, ?_⟩
    · have hr := runningOf_set_running s.workers i t hidle
      rw [List.perm_iff_count]
      intro a
      have hc := hperm.count_eq a
      have hc2 := hr.count_eq a
      rw [htasks] at hc
      simp only [List.count_append, List.count_cons] at hc hc2 ⊢
      omega
    · intro hsf w hw
      dsimp only at hsf hw
      rcases List.mem_or_eq_of_mem_set hw with h | h
      · exact hexit hsf w h
      · subst h; simp
    · intro hsf hall
      exfalso
      dsimp only at hall
      have hi : i < s.workers.length := by
        by_contra hge
        simp [List.getElem?_eq_none (Nat.le_of_not_lt hge)] at hidle
      have hset : (s.workers.set i (.running t))[i]? = some (.running t) :=
        List.getElem?_set_self hi
      have := hall _ (List.getElem?_mem hset)
      cases this
    · intro h1
      dsimp only at h1 ⊢
      rcases hret h1 with ⟨hsf, hall⟩
      exact absurd (hall _ (List.getElem?_mem hidle)) (by simp)
  | finish i t hrun =>
    refine ⟨by simpa using hlen, ?_, ?_, ?_, ?_⟩
    · have hr := runningOf_set_idle s.workers i t hrun
      rw [List.perm_iff_count]
      intro a
      have hc := hperm.count_eq a
      have hc2 := hr.count_eq a
      simp only [List.count_append, List.count_cons, List.count_nil] at hc hc2 ⊢
      omega
    · intro hsf w hw
      dsimp only at hsf hw
      rcases List.mem_or_eq_of_mem_set hw with h | h
      · exact hexit hsf w h
      · subst h; simp
    · intro hsf hall
      exfalso
      dsimp only at hall
      have hi : i < s.workers.length := by
        by_contra hge
        simp [List.getElem?_eq_none (Nat.le_of_not_lt hge)] at hrun
      have hset : (s.workers.set i .idle)[i]? = some .idle :=
        List.getElem?_set_self hi
      have := hall _ (List.getElem?_mem hset)
      cases this
    · intro h1
      dsimp only at h1
      rcases hret h1 with ⟨hsf, hall⟩
      exact absurd (hall _ (List.getElem?_mem hrun)) (by simp)
  | wexit i hidle hsf htasks =>
    refine ⟨by simpa using hlen, ?_, ?_, ?_, ?_⟩
    · dsimp only
      rw [runningOf_set_exited s.workers i hidle]
      exact hperm
    · intro h
      dsimp only at h
      rw [hsf] at h
      cases h
    · intro _ _ _
      dsimp only
      exact htasks
    · intro h1
      dsimp only at h1
      rcases hret h1 with ⟨hsf', hall⟩
      exact absurd (hall _ (List.getElem?_mem hidle)) (by simp)
  | shutdown =>
    refine ⟨hlen, hperm, ?_, ?_, ?_⟩
    · intro h
      dsimp only at h
      cases h
    · intro _ hall hne
      dsimp only at hall hne ⊢
      cases hb : s.stopFlag with
      | true => exact hdrain hb hall hne
      | false =>
        rcases List.exists_mem_of_ne_nil _ hne with ⟨w, hw⟩
        exact absurd (hall w hw) (hexit hb w hw)
    · intro h1
      dsimp only
      exact ⟨rfl, (hret (by dsimp only at h1; exact h1)).2⟩
  | joinDone hsf hall =>
    refine ⟨hlen, hperm, ?_, ?_, ?_⟩
    · intro h
      dsimp only at h
      rw [hsf] at h
      cases h
    · intro _ h hne
      exact hdrain hsf h hne
    · intro _
      exact ⟨hsf, hall⟩


theorem poolInv_reach {n : Nat} {s : PoolState} (h : PoolReach n s) : PoolInv n s := by
  induction h with
  | init => exact poolInv_init n
  | step _ hstep ih => exact poolInv_step ih hstep

theorem runningOf_eq_nil_of_all_exited (ws : List WStatus)
    (h : ∀ w ∈ ws, w = .exited) : runningOf ws = [] := by
  induction ws with
  | nil => rfl
  | cons w tl ih =>
    have hw := h w (by simp)
    subst hw
    rw [runningOf_cons_exited]
    exact ih (fun w' hw' => h w' (by simp [hw']))

/-- C4: submitting a task to a pool whose shutdown has been initiated fails
    with the pool-closed error and leaves the state unchanged (the task is
    not enqueued), and a task that was never accepted into the queue is never
    among the executed tasks of any reachable pool state. -/
theorem submit_after_shutdown_rejected (st : PoolState) (t n : Nat) (s : PoolState)
    (hstop : st.stopFlag = true) :
    enqueue st t = Except.error "enqueue on stopped ThreadPool" ∧
    (PoolReach n s → t ∉ s.submittedOk → t ∉ s.executed) := by
  constructor
  · rw [enqueue, if_pos hstop]
  · intro hr hnot hmem
    apply hnot
    have hperm := (poolInv_reach hr).2.1
    have hc := hperm.count_eq t
    simp only [List.count_append] at hc
    have h2 : 0 < List.count t s.executed := List.count_pos_iff.mpr hmem
    exact List.count_pos_iff.mp (by omega)

theorem submit_after_shutdown_rejected_witness :
    enqueue { stopFlag := true, tasks := [], workers := [], executed := [], submittedOk := [], returned := false } 5 =
      Except.error "enqueue on stopped ThreadPool" ∧
    (PoolReach 0 (initPool 0) → 5 ∉ (initPool 0).submittedOk →
      5 ∉ (initPool 0).executed) :=
  submit_after_shutdown_rejected _ 5 0 (initPool 0) rfl

/-- C5: in every reachable pool state no task has executed more often than it
    was accepted (no duplication), and once the destructor has returned the
    accepted submissions and the executed tasks coincide up to permutation:
    every task submitted before shutdown ran exactly once and the destructor
    waited for all of them. -/
theorem pool_tasks_exactly_once (n : Nat) (s : PoolState) (hn : 0 < n)
    (hreach : PoolReach n s) :
    (∀ t, List.count t s.executed ≤ List.count t s.submittedOk) ∧
    (s.returned = true → List.Perm s.submittedOk s.executed) := by
  obtain ⟨hlen, hperm, hexit, hdrain, hret⟩ := poolInv_reach hreach
  constructor
  · intro t
    have hc := hperm.count_eq t
    simp only [List.count_append] at hc
    omega
  · intro hr
    rcases hret hr with ⟨hsf, hall⟩
    have hne : s.workers ≠ [] := by
      intro h
      rw [h] at hlen
      simp at hlen
      omega
    have htasks := hdrain hsf hall hne
    have hrun := runningOf_eq_nil_of_all_exited s.workers hall
    rw [htasks, hrun] at hperm
    simpa using hperm

theorem pool_tasks_exactly_once_witness :
    (∀ t, List.count t [7] ≤ List.count t [7]) ∧
    (true = true → List.Perm [7] ([7] : List Nat)) := by
  have r0 : PoolReach 1 (initPool 1) := PoolReach.init
  have r1 : PoolReach 1 { stopFlag := false, tasks := [7], workers := [.idle], executed := [], submittedOk := [7], returned := false } :=
    r0.step (PoolStep.submit _ 7 _ rfl)
  have r2 : PoolReach 1 { stopFlag := false, tasks := [], workers := [.running 7], executed := [], submittedOk := [7], returned := false } :=
    r1.step (PoolStep.take _ 0 7 [] rfl rfl)
  have r3 : PoolReach 1 { stopFlag := false, tasks := [], workers := [.idle], executed := [7], submittedOk := [7], returned := false } :=
    r2.step (PoolStep.finish _ 0 7 rfl)
  have r4 : PoolReach 1 { stopFlag := true, tasks := [], workers := [.idle], executed := [7], submittedOk := [7], returned := false } :=
    r3.step (PoolStep.shutdown _)
  have r5 : PoolReach 1 { stopFlag := true, tasks := [], workers := [.exited], executed := [7], submittedOk := [7], returned := false } :=
    r4.step (PoolStep.wexit _ 0 rfl rfl rfl)
  have r6 : PoolReach 1 { stopFlag := true, tasks := [], workers := [.exited], executed := [7], submittedOk := [7], returned := true } :=
    r5.step (PoolStep.joinDone _ rfl (by decide))
  exact pool_tasks_exactly_once 1 _ (by decide) r6

theorem takeWhileAppendAll (p : Char → Bool) (x y : Str) (h : ∀ a ∈ x, p a = true) :
    (x ++ y).takeWhile p = x ++ y.takeWhile p := by
  induction x with
  | nil => simp
  | cons a t ih =>
    have ha := h a (by simp)
    simp only [List.cons_append, List.takeWhile_cons, ha, if_true]
    rw [ih (fun b hb => h b (by simp [hb]))]

theorem dropWhileAppendAll (p : Char → Bool) (x y : Str) (h : ∀ a ∈ x, p a = true) :
    (x ++ y).dropWhile p = y.dropWhile p := by
  induction x with
  | nil => simp
  | cons a t ih =>
    have ha := h a (by simp)
    simp only [List.cons_append, List.dropWhile_cons, ha, if_true]
    exact ih (fun b hb => h b (by simp [hb]))

/-- Every character of a `>>` token is a non-whitespace character. -/
theorem nextTok_no_ws (l : Str) : ∀ c ∈ (nextTok l).1, isWsChar c = false := by
  intro c hc
  have := List.mem_takeWhile_imp hc
  simpa using this

/-- A `>>` token never ends in a carriage return, so the trailing-CR strip
    of the version token is the identity. -/
theorem stripCr_nextTok (l : Str) : stripCr (nextTok l).1 = (nextTok l).1 := by
  rw [stripCr]
  by_cases h : (nextTok l).1.getLast? = some '\r'
  · exfalso
    have hmem : '\r' ∈ (nextTok l).1 := by
      rcases List.getLast?_eq_some_iff.mp h with ⟨t, ht⟩
      rw [ht]
      simp
    have := nextTok_no_ws l '\r' hmem
    simp [isWsChar] at this
  · rw [if_neg h]

/-- Unfolding equation for `wsTokens` in terms of `nextTok`. -/
theorem wsTokens_eq (l : Str) :
    wsTokens l =
      if (nextTok l).1 = [] then []
      else (nextTok l).1 :: wsTokens (nextTok l).2 := by
  rw [wsTokens, wsTokens]
  conv_lhs => rw [wsTokensF]
  by_cases ht : (nextTok l).1 = []
  · rw [if_pos ht, if_pos ht]
  · rw [if_neg ht, if_neg ht]
    have := nextTokRest_lt l ht
    rw [wsTokensF_congr l.length ((nextTok l).2.length + 1) (nextTok l).2
      (by omega) (by omega)]

/-- The request line fails to provide three tokens exactly when one of the
    three `>>` extractions comes back empty. -/
theorem wsTokens_lt_three (l : Str) :
    (wsTokens l).length < 3 ↔
      (reqTok1 l = [] ∨ reqTok2 l = [] ∨ reqTok3 l = []) := by
  rw [reqTok1, reqTok2, reqTok3]
  by_cases h1 : (nextTok l).1 = []
  · rw [wsTokens_eq, if_pos h1]
    simp [h1]
  · rw [wsTokens_eq, if_neg h1]
    by_cases h2 : (nextTok (nextTok l).2).1 = []
    · rw [wsTokens_eq, if_pos h2]
      simp [h1, h2]
    · rw [wsTokens_eq, if_neg h2]
      by_cases h3 : (nextTok (nextTok (nextTok l).2).2).1 = []
      · rw [wsTokens_eq, if_pos h3]
        simp [h1, h2, h3]
      · rw [wsTokens_eq, if_neg h3]
        simp only [List.length_cons]
        constructor
        · intro h
          omega
        · intro h
          rcases h with h | h | h <;> [exact absurd h h1; exact absurd h h2;
            exact absurd h h3]

/-- C6: whenever the first line of the input does not split on whitespace
    into three non-empty tokens, `HttpRequest::parse` returns a definite
    failure (`none`), not a partial request. -/
theorem reqline_under_three_tokens_fails (raw : Str)
    (h : (wsTokens (lineOf raw)).length < 3) : parse raw = none := by
  have hfail : (parseFull raw).2 = false := by
    rw [parseFull]
    by_cases hr : raw = []
    · rw [if_pos hr]
    · rw [if_neg hr]
      by_cases hl : lineOf raw = []
      · rw [if_pos hl]
      · rw [if_neg hl]
        rcases (wsTokens_lt_three (lineOf raw)).mp h with h1 | h2 | h3
        · rw [if_pos (Or.inl h1)]
        · rw [if_pos (Or.inr (Or.inl h2))]
        · rw [if_pos (Or.inr (Or.inr (by rw [reqTok3] at h3 ⊢; rw [← reqTok3] at h3 ⊢; rw [h3, stripCr]; rfl)))]
  rw [parse, hfail]
  rfl

theorem reqline_under_three_tokens_fails_witness :
    (wsTokens (lineOf (S "GET\r\n\r\n"))).length < 3 ∧
      parse (S "GET\r\n\r\n") = none :=
  ⟨by decide, reqline_under_three_tokens_fails (S "GET\r\n\r\n") (by decide)⟩

theorem splitAtColon_none (l : Str) (h : ':' ∉ l) : splitAtColon l = none := by
  rw [splitAtColon, if_neg]
  simpa using h

theorem headerStep_no_colon (m : Headers) (l : Str) (h : ':' ∉ l) :
    headerStep m l = m := by
  rw [headerStep, splitAtColon_none l h]

theorem stripCr_no_colon (l : Str) (h : ':' ∉ l) : ':' ∉ stripCr l := by
  rw [stripCr]
  by_cases hl : l.getLast? = some '\r'
  · rw [if_pos hl]
    intro hmem
    exact h (List.dropLast_subset l hmem)
  · rw [if_neg hl]
    exact h

/-- `getline` on content followed by an LF yields that content and leaves the
    stream after the LF. -/
theorem lineOf_append (content rest : Str) (hnl : '\n' ∉ content) :
    lineOf (content ++ '\n' :: rest) = content := by
  rw [lineOf, takeWhileAppendAll]
  · simp
  · intro a ha
    simpa using fun he : a = '\n' => hnl (he ▸ ha)

theorem restAfterLine_append (content rest : Str) (hnl : '\n' ∉ content) :
    restAfterLine (content ++ '\n' :: rest) = rest := by
  rw [restAfterLine, dropWhileAppendAll]
  · simp
  · intro a ha
    simpa using fun he : a = '\n' => hnl (he ▸ ha)

/-- C9: a header-section line containing no colon is silently skipped by the
    header loop: the map is unchanged, the loop does not fail, and parsing
    simply continues with the following lines. -/
theorem no_colon_header_line_skipped (m : Headers) (content rest : Str)
    (hnl : '\n' ∉ content) (hne : content ≠ []) (hncr : content ≠ S "\r")
    (hnc : ':' ∉ content) :
    headerLoop m (content ++ '\n' :: rest) = headerLoop m rest := by
  rw [headerLoop_eq]
  rw [if_neg (by simp [hne])]
  rw [lineOf_append content rest hnl, restAfterLine_append content rest hnl]
  rw [if_neg (by simp [hne, hncr])]
  rw [headerStep_no_colon m _ (stripCr_no_colon content hnc)]

theorem no_colon_header_line_skipped_witness :
    headerLoop [] (S "sneaky line\nHost: h\r\n\r\nbody") =
      headerLoop [] (S "Host: h\r\n\r\nbody") := by
  have h := no_colon_header_line_skipped [] (S "sneaky line")
    (S "Host: h\r\n\r\nbody") (by decide) (by decide) (by decide) (by decide)
  simpa using h

theorem hget_hset_hset (mm : Headers) (key vv1 vv2 : Str) :
    hget (hset (hset mm key vv1) key vv2) key = some vv2 := by
  induction mm with
  | nil => simp [hset, hget]
  | cons p rest ih =>
    by_cases hk : p.1 = key
    · simp [hset, hget, hk]
    · simp only [hset, hget, hk, if_false, if_neg hk]
      exact ih

/-- C7: a header line is split at its first colon, the key is trimmed and
    lowercased and the value trimmed of horizontal whitespace before being
    stored; two header lines whose keys agree up to letter case update the
    map identically; and a duplicate key overwrites the earlier value. -/
theorem header_line_processing (m : Headers) (k k2 v : Str)
    (hk : ':' ∉ k) (hk2 : ':' ∉ k2)
    (hcase : lowerStr (trimWs k) = lowerStr (trimWs k2)) :
    headerStep m (k ++ ':' :: v) = hset m (lowerStr (trimWs k)) (trimWs v) ∧
    headerStep m (k ++ ':' :: v) = headerStep m (k2 ++ ':' :: v) ∧
    (∀ (mm : Headers) (key vv1 vv2 : Str),
      hget (hset (hset mm key vv1) key vv2) key = some vv2) := by
  have hsplit : ∀ (kk : Str), ':' ∉ kk →
      splitAtColon (kk ++ ':' :: v) = some (kk, v) := by
    intro kk hkk
    rw [splitAtColon, if_pos (by simp)]
    rw [takeWhileAppendAll _ kk _ (fun a ha => by
      simpa using fun he : a = ':' => hkk (he ▸ ha))]
    rw [dropWhileAppendAll _ kk _ (fun a ha => by
      simpa using fun he : a = ':' => hkk (he ▸ ha))]
    simp
  refine ⟨?_, ?_, hget_hset_hset⟩
  · rw [headerStep, hsplit k hk]
  · rw [headerStep, hsplit k hk, headerStep, hsplit k2 hk2]
    show hset m (lowerStr (trimWs k)) (trimWs v) =
      hset m (lowerStr (trimWs k2)) (trimWs v)
    rw [hcase]

theorem header_line_processing_witness :
    (headerStep [] (S "Content-Length" ++ ':' :: S " 5") =
      hset [] (lowerStr (trimWs (S "Content-Length"))) (trimWs (S " 5"))) ∧
    (headerStep [] (S "Content-Length" ++ ':' :: S " 5") =
      headerStep [] (S "content-length" ++ ':' :: S " 5")) ∧
    (∀ (mm : Headers) (key vv1 vv2 : Str),
      hget (hset (hset mm key vv1) key vv2) key = some vv2) :=
  header_line_processing [] (S "Content-Length") (S "content-length") (S " 5")
    (by decide) (by decide) (by decide)

/-- C10 counterexample: on an input with a three-token request line and no
    `\r\n\r\n` anywhere, the parser does report success, but the header
    section does not extend to the end of the input: a bare-LF blank line
    already stops the header loop, so the later line `B: 2` is not parsed
    into the header map even though `A: 1` is. -/
theorem headers_stop_at_bare_blank_line :
    findSeq4 (S "GET / HTTP/1.1\nA: 1\n\nB: 2") = none ∧
    (parseFull (S "GET / HTTP/1.1\nA: 1\n\nB: 2")).2 = true ∧
    hget (parseFull (S "GET / HTTP/1.1\nA: 1\n\nB: 2")).1.headers (S "a") =
      some (S "1") ∧
    hget (parseFull (S "GET / HTTP/1.1\nA: 1\n\nB: 2")).1.headers (S "b") =
      none := by
  decide

/-- C10 amended: on a non-empty buffer whose first line has three non-empty
    whitespace tokens, the parser succeeds even when the buffer contains no
    `\r\n\r\n` at all — no completeness check is performed (the header
    section runs to the first blank or lone-CR line, or to end of input). -/
theorem parse_succeeds_without_terminator (raw : Str)
    (hterm : findSeq4 raw = none)
    (htok : 3 ≤ (wsTokens (lineOf raw)).length) :
    parse raw = some (parseFull raw).1 := by
  have hnottri : ¬ (wsTokens (lineOf raw)).length < 3 := by omega
  have htoks := (not_iff_not.mpr (wsTokens_lt_three (lineOf raw))).mp hnottri
  push_neg at htoks
  obtain ⟨h1, h2, h3⟩ := htoks
  have hraw : raw ≠ [] := by
    intro h
    subst h
    rw [reqTok1] at h1
    exact h1 (by decide)
  have hline : lineOf raw ≠ [] := by
    intro h
    rw [reqTok1, h] at h1
    exact h1 (by decide)
  have hsucc : (parseFull raw).2 = true := by
    rw [parseFull, if_neg hraw, if_neg hline, if_neg]
    push_neg
    refine ⟨h1, h2, ?_⟩
    rw [reqTok3, stripCr_nextTok]
    rw [reqTok3] at h3
    exact h3
  rw [parse, hsucc]
  rfl

theorem parse_succeeds_without_terminator_witness :
    parse (S "GET /p HTTP/1.1\nHost: x") =
      some (parseFull (S "GET /p HTTP/1.1\nHost: x")).1 :=
  parse_succeeds_without_terminator (S "GET /p HTTP/1.1\nHost: x")
    (by decide) (by decide)

/-- C2 evidence: a complete GET exchange on webserver3 sends a response yet
    never closes the client socket (`handle_request` contains no close call),
    while webserver2's driver closes the socket unconditionally. -/
theorem ws3_socket_left_open :
    (ws3_handle_request (fun _ => []) [S "GET / HTTP/1.1\r\n\r\n"]).closed = false ∧
    ((ws3_handle_request (fun _ => []) [S "GET / HTTP/1.1\r\n\r\n"]).response).isSome
      = true ∧
    (ws2_handle_request (S "now") (some (S "GET / HTTP/1.1\r\n\r\n"))).closed
      = true ∧
    (ws2_handle_request (S "now") none).closed = true := by
  decide

/-- C8 counterexample: an OPTIONS request produces no response at all from
    webserver3's handler (no 204, no CORS headers), and webserver2 answers it
    with 501 Not Implemented rather than a 405 or 204. -/
theorem options_gets_no_204 :
    (ws3_handle_request (fun _ => []) [S "OPTIONS / HTTP/1.1\r\n\r\n"]).response
      = none ∧
    (ws2_route (S "now") (S "OPTIONS / HTTP/1.1\r\n\r\n")).take 12 =
      S "HTTP/1.1 501" := by
  decide

/-- C8 amended: webserver3's handler recognizes exactly GET and POST and
    sends nothing for any other method; webserver2's handler recognizes only
    GET and responds 501 Not Implemented to every other method. -/
theorem non_get_post_unhandled (fs : Str → Str) (buf now data : Str)
    (hg : (parseFull buf).1.method ≠ S "GET")
    (hp : (parseFull buf).1.method ≠ S "POST")
    (hg2 : (nextTok data).1 ≠ S "GET") :
    handleAfterFrame fs buf = none ∧
    ws2_route now data =
      mkResp2 (S "501 Not Implemented") (S "text/html")
        (S "<h1>501 Not Implemented</h1><p>Only GET method is supported.</p>") := by
  constructor
  · rw [handleAfterFrame, if_neg hg, if_neg hp]
  · rw [ws2_route, if_neg hg2]

theorem non_get_post_unhandled_witness :
    handleAfterFrame (fun _ => []) (S "OPTIONS /p HTTP/1.1\r\n\r\n") = none ∧
    ws2_route (S "now") (S "OPTIONS /p HTTP/1.1\r\n\r\n") =
      mkResp2 (S "501 Not Implemented") (S "text/html")
        (S "<h1>501 Not Implemented</h1><p>Only GET method is supported.</p>") :=
  non_get_post_unhandled (fun _ => []) (S "OPTIONS /p HTTP/1.1\r\n\r\n")
    (S "now") (S "OPTIONS /p HTTP/1.1\r\n\r\n") (by decide) (by decide) (by decide)

/-- C1 counterexample: a POST with no `Content-Length` header is answered
    with a 200 echo of the empty body — no 411 response and no distinct
    length-required error exist anywhere in the code. -/
theorem post_without_length_gets_200 :
    (ws3_handle_request (fun _ => [])
        [S "POST /submit HTTP/1.1\r\nHost: x\r\n\r\n"]).response =
      some (S "HTTP/1.1 200 OK\r\nContent-Type: text/plain\r\nContent-Length: 0\r\n\r\n") := by
  decide

/-- The body field of a parse result is either the `bodyOf` computation of the
    successful branch or the empty default of a failure branch. -/
theorem parseFull_body_cases (raw : Str) :
    (parseFull raw).1.body =
      bodyOf (parseFull raw).1.method (parseFull raw).1.headers
        (headerLoop [] (restAfterLine raw)).2 ∨
    (parseFull raw).1.body = [] := by
  rw [parseFull]
  by_cases h1 : raw = []
  · right
    rw [if_pos h1]
  · rw [if_neg h1]
    by_cases h2 : lineOf raw = []
    · right
      rw [if_pos h2]
    · rw [if_neg h2]
      by_cases h3 : reqTok1 (lineOf raw) = [] ∨ reqTok2 (lineOf raw) = [] ∨
          stripCr (reqTok3 (lineOf raw)) = []
      · right
        rw [if_pos h3]
      · left
        rw [if_neg h3]

/-- C1 amended: a POST whose `Content-Length` is absent (or declared as 0) is
    treated as a zero-length body: the read loop stops at the chunk containing
    the header terminator without consuming any further chunks, and the
    handler responds 200 echoing the empty body.  No 411 response exists. -/
theorem post_zero_or_absent_length_echoes_empty (fs : Str → Str) (buf : Str)
    (rest : List Str) (p : Nat)
    (hpost : (parseFull buf).1.method = S "POST")
    (hlen : hget (parseFull buf).1.headers contentLengthKey = none ∨
      (∃ v, hget (parseFull buf).1.headers contentLengthKey = some v ∧
        stoi v = some 0))
    (hterm : findSeq4 buf = some p) :
    frameLoop [] false 0 (buf :: rest) = (buf, true) ∧
    handleAfterFrame fs buf = some (resp200Plain (parseFull buf).1.body) ∧
    (parseFull buf).1.body = [] := by
  have hdl : declaredLen (parseFull buf).1.method (parseFull buf).1.headers =
      .ok 0 := by
    rw [declaredLen, if_pos (Or.inl hpost)]
    rcases hlen with h | ⟨v, hv, hz⟩
    · rw [h]
    · rw [hv]
      simp [hz]
  have hdisc : frameDiscover false 0 buf = (true, 0, false) := by
    rw [frameDiscover, if_neg (by simp), hterm, hdl]
  refine ⟨?_, ?_, ?_⟩
  · rw [frameLoop]
    simp only [List.nil_append, hdisc, hterm]
    rw [if_neg (by simp), if_pos (by simp)]
    simp
  · rw [handleAfterFrame, if_neg (by rw [hpost]; decide), if_pos hpost]
  · rcases parseFull_body_cases buf with hb | hb
    · rw [hb, bodyOf, if_pos (Or.inl hpost)]
      rcases hlen with h | ⟨v, hv, hz⟩
      · rw [h]
      · rw [hv]
        simp [hz]
    · exact hb

theorem startsWithTerm_iff (s : Str) :
    startsWithTerm s = true ↔ ∃ t, s = '\r' :: '\n' :: '\r' :: '\n' :: t := by
  constructor
  · intro h
    match s, h with
    | a :: b :: c :: d :: t, h =>
      simp only [startsWithTerm, Bool.and_eq_true, decide_eq_true_eq] at h
      obtain ⟨⟨⟨ha, hb⟩, hc⟩, hd⟩ := h
      exact ⟨t, by rw [ha, hb, hc, hd]⟩
  · rintro ⟨t, rfl⟩
    rfl

theorem startsWithTerm_take (x : Str) (n : Nat)
    (h : startsWithTerm (x.take n) = true) : startsWithTerm x = true := by
  rcases (startsWithTerm_iff _).mp h with ⟨t, ht⟩
  have hx : x = x.take n ++ x.drop n := (List.take_append_drop n x).symm
  rw [ht] at hx
  rw [startsWithTerm_iff]
  refine ⟨t ++ x.drop n, ?_⟩
  conv_lhs => rw [hx]
  simp

theorem dropTakeComm (s : Str) (k q : Nat) (h : q ≤ k) :
    (s.take k).drop q = (s.drop q).take (k - q) := by
  have hq : q + (k - q) = k := by omega
  rw [List.take_drop, hq]

theorem findSeq4_spec (s : Str) (p : Nat) (h : findSeq4 s = some p) :
    p + 4 ≤ s.length ∧ startsWithTerm (s.drop p) = true := by
  induction s generalizing p with
  | nil => simp [findSeq4] at h
  | cons c rest ih =>
    rw [findSeq4] at h
    by_cases hst : startsWithTerm (c :: rest) = true
    · rw [if_pos hst] at h
      cases h
      rcases (startsWithTerm_iff _).mp hst with ⟨t, ht⟩
      refine ⟨?_, hst⟩
      rw [ht]
      simp
    · rw [if_neg hst] at h
      rcases Option.map_eq_some'.mp h with ⟨q, hq, rfl⟩
      rcases ih q hq with ⟨h1, h2⟩
      refine ⟨by simp; omega, ?_⟩
      simpa using h2

theorem findSeq4_minimal (s : Str) (p : Nat) (h : findSeq4 s = some p) :
    ∀ q, q < p → startsWithTerm (s.drop q) = false := by
  induction s generalizing p with
  | nil => simp [findSeq4] at h
  | cons c rest ih =>
    rw [findSeq4] at h
    by_cases hst : startsWithTerm (c :: rest) = true
    · rw [if_pos hst] at h
      cases h
      intro q hq
      omega
    · rw [if_neg hst] at h
      rcases Option.map_eq_some'.mp h with ⟨q', hq', rfl⟩
      intro q hq
      cases q with
      | zero =>
        simpa using Bool.not_eq_true _ |>.mp hst
      | succ r =>
        have := ih q' hq' r (by omega)
        simpa using this

theorem findSeq4_of_startsWith (s : Str) (q : Nat)
    (h : startsWithTerm (s.drop q) = true) :
    ∃ p, p ≤ q ∧ findSeq4 s = some p := by
  induction s generalizing q with
  | nil =>
    rw [List.drop_nil] at h
    cases h
  | cons c rest ih =>
    by_cases hst : startsWithTerm (c :: rest) = true
    · exact ⟨0, by omega, by rw [findSeq4, if_pos hst]⟩
    · cases q with
      | zero =>
        rw [List.drop_zero] at h
        exact absurd h hst
      | succ r =>
        rcases ih r (by simpa using h) with ⟨p, hp, hfind⟩
        refine ⟨p + 1, by omega, ?_⟩
        rw [findSeq4, if_neg hst, hfind]
        rfl

theorem findSeq4_take (s : Str) (p k : Nat) (h : findSeq4 s = some p) :
    findSeq4 (s.take k) = if p + 4 ≤ k then some p else none := by
  rcases findSeq4_spec s p h with ⟨hlen, hst⟩
  by_cases hk : p + 4 ≤ k
  · rw [if_pos hk]
    rcases (startsWithTerm_iff _).mp hst with ⟨t, ht⟩
    obtain ⟨m, hm⟩ : ∃ m, k - p = m + 4 := ⟨k - p - 4, by omega⟩
    have hstk : startsWithTerm ((s.take k).drop p) = true := by
      rw [dropTakeComm s k p (by omega), ht, hm]
      rfl
    rcases findSeq4_of_startsWith (s.take k) p hstk with ⟨p', hple, hp'⟩
    have hnlt : ¬ p' < p := by
      intro hlt
      have h1 := findSeq4_spec _ _ hp'
      have h2 : startsWithTerm ((s.take k).drop p') = true := h1.2
      rw [dropTakeComm s k p' (by omega)] at h2
      have h4 := startsWithTerm_take _ _ h2
      have h5 := findSeq4_minimal s p h p' hlt
      rw [h4] at h5
      cases h5
    have hpe : p' = p := by omega
    rw [hpe] at hp'
    exact hp'
  · rw [if_neg hk]
    cases hfind : findSeq4 (s.take k) with
    | none => rfl
    | some q =>
      exfalso
      rcases findSeq4_spec _ _ hfind with ⟨hqlen, hqst⟩
      have hkl : (s.take k).length ≤ k := by
        simp [List.length_take]
      have hqlt : q < p := by omega
      rw [dropTakeComm s k q (by omega)] at hqst
      have h4 := startsWithTerm_take _ _ hqst
      have h5 := findSeq4_minimal s p h q hqlt
      rw [h4] at h5
      cases h5

theorem takeAppendPlus (x y : Str) (m : Nat) :
    (x ++ y).take (x.length + m) = x ++ y.take m := by
  induction x with
  | nil => simp
  | cons a t ih =>
    simp only [List.cons_append, List.length_cons]
    have harith : t.length + 1 + m = (t.length + m) + 1 := by omega
    rw [harith, List.take_succ_cons, ih]

theorem startsWithTerm_cons_ne (c : Char) (z : Str) (hc : c ≠ '\r') :
    startsWithTerm (c :: z) = false := by
  rcases z with _ | ⟨b, _ | ⟨d, _ | ⟨e, t⟩⟩⟩ <;> simp [startsWithTerm, hc]

theorem startsWithCrlf_cons_ne (c : Char) (z : Str) (hc : c ≠ '\r') :
    startsWithCrlf (c :: z) = false := by
  rcases z with _ | ⟨b, t⟩ <;> simp [startsWithCrlf, hc]

theorem startsWithCrlf_append_ne (h z : Str) (hne : h ≠ []) (hcr : '\r' ∉ h) :
    startsWithCrlf (h ++ z) = false := by
  rcases h with _ | ⟨c, t⟩
  · exact absurd rfl hne
  · rw [List.cons_append]
    exact startsWithCrlf_cons_ne c (t ++ z) (fun he => hcr (by simp [he]))

theorem findSeq4_cons (c : Char) (rest : Str) :
    findSeq4 (c :: rest) =
      if startsWithTerm (c :: rest) then some 0
      else (findSeq4 rest).map (· + 1) := rfl

theorem findSeq4_crlf_prefix (s : Str) :
    findSeq4 ('\r' :: '\n' :: s) =
      if startsWithCrlf s then some 0 else (findSeq4 s).map (· + 2) := by
  rcases s with _ | ⟨a, _ | ⟨b, t⟩⟩
  · rfl
  · rfl
  · have hterm : startsWithTerm ('\r' :: '\n' :: a :: b :: t) =
        (decide (a = '\r') && decide (b = '\n')) := by
      simp [startsWithTerm]
    have hcrlf : startsWithCrlf (a :: b :: t) =
        (decide (a = '\r') && decide (b = '\n')) := by
      simp [startsWithCrlf]
    by_cases hab : (decide (a = '\r') && decide (b = '\n')) = true
    · rw [findSeq4_cons, if_pos (by rw [hterm]; exact hab)]
      rw [if_pos (by rw [hcrlf]; exact hab)]
    · rw [findSeq4_cons, if_neg (by rw [hterm]; exact hab)]
      rw [findSeq4_cons,
        if_neg (by rw [startsWithTerm_cons_ne '\n' _ (by decide)]; simp)]
      rw [if_neg (by rw [hcrlf]; exact hab)]
      cases hf : findSeq4 (a :: b :: t) <;> simp <;> omega

theorem findSeq4_noCr_crlf (x s : Str) (hx : '\r' ∉ x) :
    findSeq4 (x ++ '\r' :: '\n' :: s) =
      if startsWithCrlf s then some x.length
      else (findSeq4 s).map (· + (x.length + 2)) := by
  induction x with
  | nil =>
    simpa using findSeq4_crlf_prefix s
  | cons c t ih =>
    have hc : c ≠ '\r' := fun h => hx (by simp [h])
    have ht : '\r' ∉ t := fun h => hx (by simp [h])
    rw [List.cons_append, findSeq4]
    rw [if_neg (by rw [startsWithTerm_cons_ne c _ hc]; simp)]
    rw [ih ht]
    by_cases hcs : startsWithCrlf s = true
    · rw [if_pos hcs, if_pos hcs]
      simp
    · rw [if_neg hcs, if_neg hcs]
      cases hf : findSeq4 s <;> simp <;> omega

theorem headerBytes_cons (h : Str) (t : List Str) :
    headerBytes (h :: t) = h ++ '\r' :: '\n' :: headerBytes t := by
  simp [headerBytes, crlf]

theorem headerBytes_length_cons (h : Str) (t : List Str) :
    (headerBytes (h :: t)).length = h.length + 2 + (headerBytes t).length := by
  rw [headerBytes_cons]
  simp
  omega

theorem findSeq4_headerBytes (hls : List Str) : ∀ (body : Str), hls ≠ [] →
    (∀ h ∈ hls, h ≠ [] ∧ '\r' ∉ h) →
    findSeq4 (headerBytes hls ++ '\r' :: '\n' :: body) =
      some ((headerBytes hls).length - 2) := by
  induction hls with
  | nil => intro body hne _; exact absurd rfl hne
  | cons h t ih =>
    intro body _ hh
    obtain ⟨hne1, hcr1⟩ := hh h (by simp)
    have harg : headerBytes (h :: t) ++ '\r' :: '\n' :: body =
        h ++ '\r' :: '\n' :: (headerBytes t ++ '\r' :: '\n' :: body) := by
      rw [headerBytes_cons]
      simp
    rw [harg, findSeq4_noCr_crlf h _ hcr1]
    cases t with
    | nil =>
      rw [if_pos (by rw [headerBytes]; rfl)]
      rw [headerBytes_length_cons]
      simp [headerBytes]
    | cons h2 t2 =>
      obtain ⟨hne2, hcr2⟩ := hh h2 (by simp)
      have hfalse : startsWithCrlf (headerBytes (h2 :: t2) ++ '\r' :: '\n' :: body)
          = false := by
        rw [headerBytes_cons]
        have hshape : (h2 ++ '\r' :: '\n' :: headerBytes t2) ++ '\r' :: '\n' :: body =
            h2 ++ ('\r' :: '\n' :: headerBytes t2 ++ '\r' :: '\n' :: body) := by
          simp
        rw [hshape]
        exact startsWithCrlf_append_ne h2 _ hne2 hcr2
      rw [if_neg (by rw [hfalse]; simp)]
      rw [ih body (by simp) (fun x hx => hh x (by simp [hx]))]
      have hlen2 : 2 ≤ (headerBytes (h2 :: t2)).length := by
        rw [headerBytes_length_cons]
        omega
      rw [headerBytes_length_cons h (h2 :: t2)]
      simp only [Option.map_some']
      congr 1
      omega

theorem mkRequest_eq (rl : Str) (hls : List Str) (body : Str) :
    mkRequest rl hls body =
      rl ++ '\r' :: '\n' :: (headerBytes hls ++ '\r' :: '\n' :: body) := by
  simp [mkRequest, crlf]

/-- The header terminator of a well-formed wire request sits exactly at
    `termPos`. -/
theorem findSeq4_mkRequest (rl : Str) (hls : List Str) (body : Str)
    (hrl : '\r' ∉ rl) (hh : ∀ h ∈ hls, h ≠ [] ∧ '\r' ∉ h) :
    findSeq4 (mkRequest rl hls body) = some (termPos rl hls) := by
  rw [mkRequest_eq, findSeq4_noCr_crlf rl _ hrl]
  cases hls with
  | nil =>
    rw [if_pos (by rw [headerBytes]; rfl)]
    rw [termPos, headerBytes]
    simp
  | cons h t =>
    obtain ⟨hne1, hcr1⟩ := hh h (by simp)
    have hfalse : startsWithCrlf (headerBytes (h :: t) ++ '\r' :: '\n' :: body)
        = false := by
      rw [headerBytes_cons]
      have : (h ++ '\r' :: '\n' :: headerBytes t) ++ '\r' :: '\n' :: body =
          h ++ ('\r' :: '\n' :: headerBytes t ++ '\r' :: '\n' :: body) := by
        simp
      rw [this]
      exact startsWithCrlf_append_ne h _ hne1 hcr1
    rw [if_neg (by rw [hfalse]; simp)]
    rw [findSeq4_headerBytes (h :: t) body (by simp) hh]
    have hlen2 : 2 ≤ (headerBytes (h :: t)).length := by
      rw [headerBytes_length_cons]
      omega
    rw [termPos]
    simp only [Option.map_some']
    congr 1
    omega

theorem mkRequest_length (rl : Str) (hls : List Str) (body : Str) :
    (mkRequest rl hls body).length = termPos rl hls + 4 + body.length := by
  rw [mkRequest, termPos, crlf]
  simp
  omega

theorem mkRequest_take (rl : Str) (hls : List Str) (body : Str) (m : Nat) :
    (mkRequest rl hls body).take (termPos rl hls + 4 + m) =
      mkRequest rl hls (body.take m) := by
  have hsplit : mkRequest rl hls body =
      (rl ++ crlf ++ headerBytes hls ++ crlf) ++ body := by
    simp [mkRequest]
  have hsplit2 : mkRequest rl hls (body.take m) =
      (rl ++ crlf ++ headerBytes hls ++ crlf) ++ body.take m := by
    simp [mkRequest]
  have hlen : (rl ++ crlf ++ headerBytes hls ++ crlf).length =
      termPos rl hls + 4 := by
    rw [termPos, crlf]
    simp
    omega
  rw [hsplit, hsplit2, ← hlen, takeAppendPlus]

/-- Running the header loop over wire-encoded header lines folds
    `headerStep` over them and stops just after the blank line. -/
theorem headerLoop_mk (hls : List Str) : ∀ (m : Headers) (tail : Str),
    (∀ h ∈ hls, h ≠ [] ∧ '\n' ∉ h) →
    headerLoop m (headerBytes hls ++ '\r' :: '\n' :: tail) =
      (foldHeaders m hls, tail) := by
  induction hls with
  | nil =>
    intro m tail _
    have h0 : headerBytes [] = [] := rfl
    rw [h0, List.nil_append, headerLoop_eq]
    rw [if_neg (by simp)]
    have hl : lineOf ('\r' :: '\n' :: tail) = ['\r'] :=
      lineOf_append ['\r'] tail (by decide)
    have hr : restAfterLine ('\r' :: '\n' :: tail) = tail :=
      restAfterLine_append ['\r'] tail (by decide)
    rw [if_pos (Or.inl (by rw [hl]; rfl))]
    rw [hr]
    rfl
  | cons h t ih =>
    intro m tail hh
    obtain ⟨hne, hnl⟩ := hh h (by simp)
    have hnlr : '\n' ∉ h ++ ['\r'] := by
      intro hmem
      rcases List.mem_append.mp hmem with hm | hm
      · exact hnl hm
      · simp at hm
    have harg : headerBytes (h :: t) ++ '\r' :: '\n' :: tail =
        (h ++ ['\r']) ++ '\n' :: (headerBytes t ++ '\r' :: '\n' :: tail) := by
      rw [headerBytes_cons]
      simp
    rw [harg, headerLoop_eq]
    rw [if_neg (by simp)]
    rw [lineOf_append (h ++ ['\r']) _ hnlr]
    rw [restAfterLine_append (h ++ ['\r']) _ hnlr]
    rw [if_neg ?hterm]
    case hterm =>
      rintro (heq | heq)
      · have hlen := congrArg List.length heq
        simp [S] at hlen
        exact hne hlen
      · simp at heq
    have hstrip : stripCr (h ++ ['\r']) = h := by
      rw [stripCr, if_pos (List.getLast?_concat h)]
      exact List.dropLast_concat
    rw [hstrip]
    rw [ih (headerStep m h) tail (fun x hx => hh x (by simp [hx]))]
    rfl

/-- `HttpRequest::parse` on a well-formed wire request: the request line
    tokens, the folded header map, and the body section computed from the
    bytes after the blank line.  The request-line fields do not depend on
    the bytes following the blank line. -/
theorem parseFull_mk (rl : Str) (hls : List Str) (tail : Str)
    (hrlnl : '\n' ∉ rl) (hrlne : rl ≠ [])
    (hh : ∀ h ∈ hls, h ≠ [] ∧ '\n' ∉ h)
    (ht1 : reqTok1 (rl ++ ['\r']) ≠ []) (ht2 : reqTok2 (rl ++ ['\r']) ≠ [])
    (ht3 : reqTok3 (rl ++ ['\r']) ≠ []) :
    parseFull (rl ++ '\r' :: '\n' :: (headerBytes hls ++ '\r' :: '\n' :: tail)) =
      ({ method := reqTok1 (rl ++ ['\r']), path := reqTok2 (rl ++ ['\r']),
         version := reqTok3 (rl ++ ['\r']),
         headers := foldHeaders [] hls,
         body := bodyOf (reqTok1 (rl ++ ['\r'])) (foldHeaders [] hls) tail },
       true) := by
  have hnlr : '\n' ∉ rl ++ ['\r'] := by
    intro hmem
    rcases List.mem_append.mp hmem with hm | hm
    · exact hrlnl hm
    · simp at hm
  have hshape : rl ++ '\r' :: '\n' :: (headerBytes hls ++ '\r' :: '\n' :: tail) =
      (rl ++ ['\r']) ++ '\n' :: (headerBytes hls ++ '\r' :: '\n' :: tail) := by
    simp
  have hline : lineOf (rl ++ '\r' :: '\n' :: (headerBytes hls ++ '\r' :: '\n' :: tail))
      = rl ++ ['\r'] := by
    rw [hshape]
    exact lineOf_append _ _ hnlr
  have hrest : restAfterLine
      (rl ++ '\r' :: '\n' :: (headerBytes hls ++ '\r' :: '\n' :: tail)) =
      headerBytes hls ++ '\r' :: '\n' :: tail := by
    rw [hshape]
    exact restAfterLine_append _ _ hnlr
  have hstrip3 : stripCr (reqTok3 (rl ++ ['\r'])) = reqTok3 (rl ++ ['\r']) := by
    rw [reqTok3]
    exact stripCr_nextTok _
  rw [parseFull]
  rw [if_neg (by simp [hrlne])]
  rw [hline, hrest]
  rw [if_neg (by simp)]
  rw [hstrip3]
  rw [if_neg (by
    push_neg
    exact ⟨ht1, ht2, ht3⟩)]
  rw [headerLoop_mk hls [] tail hh]

theorem frameLoop_cons (buf : Str) (hdrRecv : Bool) (clen : Int) (c : Str)
    (rest : List Str) :
    frameLoop buf hdrRecv clen (c :: rest) =
      (let buf' := buf ++ c
       let d := frameDiscover hdrRecv clen buf'
       if d.2.2 then (buf', true)
       else if d.1 then
         match findSeq4 buf' with
         | some p =>
           if (0 ≤ d.2.1 ∧ p + 4 + d.2.1.toNat ≤ buf'.length) ∨ d.2.1 = 0 then
             (buf', true)
           else frameLoop buf' d.1 d.2.1 rest
         | none => frameLoop buf' d.1 d.2.1 rest
       else frameLoop buf' d.1 d.2.1 rest) := rfl

/-- Generic run of webserver3's read loop: with the terminator at `p`, a total
    stream of exactly `p + 4 + L` bytes, and a content-length peek that yields
    `L` on every sufficient prefix, the loop consumes every chunk and stops
    with `valread > 0` exactly when the whole stream has accumulated —
    regardless of how the stream is chunked. -/
theorem frameLoop_run (buf : Str) (p L : Nat)
    (hfind : findSeq4 buf = some p)
    (hlen : buf.length = p + 4 + L)
    (hdisc : ∀ k, p + 4 ≤ k → k ≤ buf.length →
      frameDiscover false 0 (buf.take k) = (true, (L : Int), false)) :
    ∀ (chunks : List Str) (acc : Str) (hdrRecv : Bool) (clen : Int),
      acc ++ chunks.join = buf →
      (∀ c ∈ chunks, c ≠ []) →
      ((hdrRecv = false ∧ clen = 0 ∧ acc.length < p + 4) ∨
       (hdrRecv = true ∧ clen = (L : Int) ∧ p + 4 ≤ acc.length ∧
         acc.length < p + 4 + L)) →
      frameLoop acc hdrRecv clen chunks = (buf, true) := by
  intro chunks
  induction chunks with
  | nil =>
    intro acc hdrRecv clen hjoin hne hstate
    exfalso
    have hacc : acc = buf := by simpa using hjoin
    rcases hstate with ⟨_, _, hlt⟩ | ⟨_, _, _, hlt⟩ <;> rw [hacc] at hlt <;> omega
  | cons c rest ih =>
    intro acc hdrRecv clen hjoin hne hstate
    have hcne : c ≠ [] := hne c (by simp)
    have hpre : (acc ++ c) ++ rest.join = buf := by
      rw [← hjoin]
      simp
    have hbuf' : acc ++ c = buf.take (acc ++ c).length := by
      rw [← hpre, List.take_left]
    have hlenle : (acc ++ c).length ≤ buf.length := by
      rw [← hpre]
      simp
    have hgrow : acc.length < (acc ++ c).length := by
      have := List.length_pos.mpr hcne
      simp only [List.length_append]
      omega
    have htoNat : ((L : Int)).toNat = L := Int.toNat_natCast L
    rw [frameLoop_cons]
    dsimp only
    rcases hstate with ⟨hf, hc0, hlt⟩ | ⟨hf, hcL, hge, hlt⟩
    · subst hf
      subst hc0
      by_cases hk : (acc ++ c).length < p + 4
      · have hnone : findSeq4 (acc ++ c) = none := by
          rw [hbuf', findSeq4_take buf p _ hfind, if_neg (by omega)]
        have hd : frameDiscover false 0 (acc ++ c) = (false, 0, false) := by
          rw [frameDiscover, if_neg (by simp), hnone]
        rw [hd]
        rw [if_neg (by simp), if_neg (by simp)]
        exact ih (acc ++ c) false 0 hpre (fun x hx => hne x (by simp [hx]))
          (Or.inl ⟨rfl, rfl, hk⟩)
      · have hk4 : p + 4 ≤ (acc ++ c).length := by omega
        have hd : frameDiscover false 0 (acc ++ c) = (true, (L : Int), false) := by
          rw [hbuf']
          exact hdisc _ hk4 (by omega)
        have hfind' : findSeq4 (acc ++ c) = some p := by
          rw [hbuf', findSeq4_take buf p _ hfind, if_pos (by omega)]
        rw [hd, hfind']
        rw [if_neg (by simp), if_pos (by simp)]
        dsimp only
        by_cases hdone : p + 4 + L ≤ (acc ++ c).length
        · have heq : acc ++ c = buf := by
            have hle : (acc ++ c).length = buf.length := by omega
            rw [hbuf', hle, List.take_length]
          rw [if_pos (Or.inl ⟨Int.natCast_nonneg L, by rw [htoNat]; exact hdone⟩)]
          rw [heq]
        · have hLpos : L ≠ 0 := by omega
          rw [if_neg (by
            rintro (⟨_, hle⟩ | hz)
            · rw [htoNat] at hle
              omega
            · exact hLpos (by exact_mod_cast hz))]
          exact ih (acc ++ c) true (L : Int) hpre (fun x hx => hne x (by simp [hx]))
            (Or.inr ⟨rfl, rfl, hk4, by omega⟩)
    · subst hf
      subst hcL
      have hk4 : p + 4 ≤ (acc ++ c).length := by omega
      have hd : frameDiscover true (L : Int) (acc ++ c) = (true, (L : Int), false) := by
        rw [frameDiscover, if_pos rfl]
      have hfind' : findSeq4 (acc ++ c) = some p := by
        rw [hbuf', findSeq4_take buf p _ hfind, if_pos (by omega)]
      rw [hd, hfind']
      rw [if_neg (by simp), if_pos (by simp)]
      dsimp only
      by_cases hdone : p + 4 + L ≤ (acc ++ c).length
      · have heq : acc ++ c = buf := by
          have hle : (acc ++ c).length = buf.length := by omega
          rw [hbuf', hle, List.take_length]
        rw [if_pos (Or.inl ⟨Int.natCast_nonneg L, by rw [htoNat]; exact hdone⟩)]
        rw [heq]
      · have hLpos : L ≠ 0 := by omega
        rw [if_neg (by
          rintro (⟨_, hle⟩ | hz)
          · rw [htoNat] at hle
            omega
          · exact hLpos (by exact_mod_cast hz))]
        exact ih (acc ++ c) true (L : Int) hpre (fun x hx => hne x (by simp [hx]))
          (Or.inr ⟨rfl, rfl, hk4, by omega⟩)

/-- C3: for a well-formed wire request whose declared content length matches
    its body length `L`, and for every way of splitting its bytes into
    non-empty read chunks, the read loop reports completion (`valread > 0`)
    exactly once the accumulated bytes reach header-terminator offset + 4 + L
    — consuming the whole stream and never stopping on a shorter prefix —
    and the request parsed from the accumulated buffer is the same for every
    chunking. -/
theorem framer_completion_chunking_independent (rl : Str) (hls : List Str)
    (body : Str)
    (hrlcr : '\r' ∉ rl) (hrlnl : '\n' ∉ rl) (hrlne : rl ≠ [])
    (hh : ∀ h ∈ hls, h ≠ [] ∧ '\r' ∉ h ∧ '\n' ∉ h)
    (ht1 : reqTok1 (rl ++ ['\r']) ≠ []) (ht2 : reqTok2 (rl ++ ['\r']) ≠ [])
    (ht3 : reqTok3 (rl ++ ['\r']) ≠ [])
    (hdecl : declaredLen (reqTok1 (rl ++ ['\r'])) (foldHeaders [] hls) =
      .ok (body.length : Int))
    (chunks : List Str) (hchunks : ∀ c ∈ chunks, c ≠ [])
    (hjoin : chunks.join = mkRequest rl hls body) :
    findSeq4 (mkRequest rl hls body) = some (termPos rl hls) ∧
    (mkRequest rl hls body).length = termPos rl hls + 4 + body.length ∧
    frameLoop [] false 0 chunks = (mkRequest rl hls body, true) ∧
    parseFull (frameLoop [] false 0 chunks).1 =
      parseFull (mkRequest rl hls body) := by
  have hhcr : ∀ h ∈ hls, h ≠ [] ∧ '\r' ∉ h :=
    fun h hm => ⟨(hh h hm).1, (hh h hm).2.1⟩
  have hhnl : ∀ h ∈ hls, h ≠ [] ∧ '\n' ∉ h :=
    fun h hm => ⟨(hh h hm).1, (hh h hm).2.2⟩
  have hfind := findSeq4_mkRequest rl hls body hrlcr hhcr
  have hlen := mkRequest_length rl hls body
  have hdisc : ∀ k, termPos rl hls + 4 ≤ k →
      k ≤ (mkRequest rl hls body).length →
      frameDiscover false 0 ((mkRequest rl hls body).take k) =
        (true, (body.length : Int), false) := by
    intro k hk4 hkle
    obtain ⟨m, rfl⟩ : ∃ m, k = termPos rl hls + 4 + m :=
      ⟨k - (termPos rl hls + 4), by omega⟩
    rw [mkRequest_take rl hls body m]
    rw [frameDiscover, if_neg (by simp)]
    rw [findSeq4_mkRequest rl hls (body.take m) hrlcr hhcr]
    rw [mkRequest_eq, parseFull_mk rl hls (body.take m) hrlnl hrlne hhnl
      ht1 ht2 ht3]
    dsimp only
    rw [hdecl]
  have hrun : frameLoop [] false 0 chunks = (mkRequest rl hls body, true) :=
    frameLoop_run (mkRequest rl hls body) (termPos rl hls) body.length hfind
      hlen hdisc chunks [] false 0 (by simpa using hjoin) hchunks
      (Or.inl ⟨rfl, rfl, by rw [List.length_nil]; omega⟩)
  refine ⟨hfind, hlen, hrun, ?_⟩
  rw [hrun]

theorem framer_completion_chunking_independent_witness :
    findSeq4 (mkRequest (S "POST /x HTTP/1.1") [S "Content-Length: 4"]
      (S "abcd")) = some (termPos (S "POST /x HTTP/1.1")
      [S "Content-Length: 4"]) ∧
    (mkRequest (S "POST /x HTTP/1.1") [S "Content-Length: 4"]
      (S "abcd")).length = termPos (S "POST /x HTTP/1.1")
      [S "Content-Length: 4"] + 4 + (S "abcd").length ∧
    frameLoop [] false 0 [S "POS", S "T /x HTTP/1.1\r\nContent-Le",
      S "ngth: 4\r\n\r\nab", S "cd"] =
      (mkRequest (S "POST /x HTTP/1.1") [S "Content-Length: 4"]
        (S "abcd"), true) ∧
    parseFull (frameLoop [] false 0 [S "POS", S "T /x HTTP/1.1\r\nContent-Le",
      S "ngth: 4\r\n\r\nab", S "cd"]).1 =
      parseFull (mkRequest (S "POST /x HTTP/1.1") [S "Content-Length: 4"]
        (S "abcd")) :=
  framer_completion_chunking_independent (S "POST /x HTTP/1.1")
    [S "Content-Length: 4"] (S "abcd")
    (by decide) (by decide) (by decide) (by decide)
    (by decide) (by decide) (by decide) (by decide)
    [S "POS", S "T /x HTTP/1.1\r\nContent-Le", S "ngth: 4\r\n\r\nab", S "cd"]
    (by decide) (by decide)

theorem post_zero_or_absent_length_echoes_empty_witness :
    frameLoop [] false 0 [S "POST /q HTTP/1.1\r\n\r\n", S "IGNORED"] =
      (S "POST /q HTTP/1.1\r\n\r\n", true) ∧
    handleAfterFrame (fun _ => []) (S "POST /q HTTP/1.1\r\n\r\n") =
      some (resp200Plain (parseFull (S "POST /q HTTP/1.1\r\n\r\n")).1.body) ∧
    (parseFull (S "POST /q HTTP/1.1\r\n\r\n")).1.body = [] :=
  post_zero_or_absent_length_echoes_empty (fun _ => [])
    (S "POST /q HTTP/1.1\r\n\r\n") [S "IGNORED"] 16
    (by decide) (Or.inl (by decide)) (by decide)

end WebServer
